import Mathlib

/-!
# Verification of chemprop `data.py` (dataset / masking orchestration layer)

A shallow embedding of `src/chemprop/data/data.py` in Lean 4, together with
theorems settling the specification claims about it.

Conventions of the embedding:
* Python floats are modelled as `ℚ` (the code only adds, divides and compares).
* Python exceptions are modelled with `Except PyError`.
* `numpy`/`random` draws are passed in explicitly as streams (`Nat → ℚ`,
  `Nat → Nat`); a bounded draw `randint(n)` is modelled as `r % n` for a
  caller-supplied `r`, which ranges over exactly the values `randint` can take.
* Python `set.pop` (arbitrary element choice) is passed in as a choice
  function `pick : Finset ℕ → ℕ`.
-/

/-- Python exception kinds raised by the modelled code paths. -/
inductive PyError where
  | assertionError
  | indexError
  | valueError
  deriving DecidableEq, Repr

/-! ## SparseNoneArray (`data.py` lines 19–30)

```python
class SparseNoneArray:
    def __init__(self, targets):
        self.length = len(targets)
        self.targets = defaultdict(lambda: None,
                                   {i: x for i, x in enumerate(targets) if x is not None})
    def __len__(self):
        return self.length
    def __getitem__(self, i):
        if i >= self.length:
            raise IndexError
        return self.targets[i]
```
The dict comprehension keeps only the non-`None` entries, keyed by position;
the `defaultdict` returns `None` for every absent key (including negative
ones). We model the dict as an association list built with an explicit
position counter, and the `defaultdict` lookup as `find?` with default
`none`. -/

/-- The dict `{i: x for i, x in enumerate(targets) if x is not None}`,
built from position `k` onwards (the top-level call uses `k = 0`). -/
def sparseDict : List (Option ℚ) → Nat → List (Int × ℚ)
  | [], _ => []
  | none :: ts, k => sparseDict ts (k + 1)
  | some x :: ts, k => ((k : Int), x) :: sparseDict ts (k + 1)

/-- `defaultdict(lambda: None, d)[i]`: first binding of key `i`, else `None`. -/
def dictGet (d : List (Int × ℚ)) (i : Int) : Option ℚ :=
  (d.find? (fun p => p.1 == i)).map Prod.snd

structure SparseNoneArray where
  length : Nat
  targets : List (Int × ℚ)
  deriving Repr, DecidableEq

/-- `SparseNoneArray.__init__`. -/
def SparseNoneArray.ofTargets (ts : List (Option ℚ)) : SparseNoneArray :=
  { length := ts.length, targets := sparseDict ts 0 }

/-- `SparseNoneArray.__getitem__`: raises `IndexError` iff `i >= self.length`;
otherwise a `defaultdict` lookup (negative keys are simply absent). -/
def SparseNoneArray.getItem (a : SparseNoneArray) (i : Int) : Except PyError (Option ℚ) :=
  if (a.length : Int) ≤ i then .error .indexError
  else .ok (dictGet a.targets i)

/-! Lookup lemmas for the sparse dict. -/

theorem sparseDict_keys_lt (ts : List (Option ℚ)) (k : Nat) :
    ∀ p ∈ sparseDict ts k, (k : Int) ≤ p.1 ∧ p.1 < (k + ts.length : Nat) := by
  induction ts generalizing k with
  | nil => intro p hp; simp [sparseDict] at hp
  | cons t ts ih =>
    intro p hp
    cases t with
    | none =>
      have h := ih (k + 1) p hp
      constructor
      · omega
      · have := h.2; simp only [List.length_cons]; push_cast at this ⊢; omega
    | some x =>
      simp only [sparseDict, List.mem_cons] at hp
      rcases hp with rfl | hp
      · constructor
        · simp
        · simp only [List.length_cons]; push_cast; omega
      · have h := ih (k + 1) p hp
        constructor
        · omega
        · have := h.2; simp only [List.length_cons]; push_cast at this ⊢; omega

theorem dictGet_sparseDict_out (ts : List (Option ℚ)) (k : Nat) (i : Int)
    (h : i < (k : Int) ∨ ((k + ts.length : Nat) : Int) ≤ i) :
    dictGet (sparseDict ts k) i = none := by
  unfold dictGet
  rw [List.find?_eq_none.mpr]
  · rfl
  · intro p hp
    have hk := sparseDict_keys_lt ts k p hp
    simp only [beq_iff_eq]
    intro hpe
    rcases h with h | h <;> omega

theorem dictGet_sparseDict_in (ts : List (Option ℚ)) (k : Nat) (j : Nat)
    (h : j < ts.length) :
    dictGet (sparseDict ts k) ((k + j : Nat) : Int) = ts.get ⟨j, h⟩ := by
  induction ts generalizing k j with
  | nil => simp at h
  | cons t ts ih =>
    cases j with
    | zero =>
      cases t with
      | none =>
        have : dictGet (sparseDict ts (k + 1)) ((k + 0 : Nat) : Int) = none := by
          apply dictGet_sparseDict_out
          left; push_cast; omega
        simpa [sparseDict] using this
      | some x =>
        simp [sparseDict, dictGet, List.find?]
    | succ j =>
      have hj : j < ts.length := by simpa using Nat.lt_of_succ_lt_succ h
      have hrec := ih (k + 1) j hj
      have harg : ((k + (j + 1) : Nat) : Int) = (((k + 1) + j : Nat) : Int) := by
        push_cast; omega
      cases t with
      | none =>
        simpa [sparseDict, harg] using hrec
      | some x =>
        have hstep : sparseDict (some x :: ts) k = ((k : Int), x) :: sparseDict ts (k + 1) :=
          rfl
        rw [hstep]
        unfold dictGet
        rw [List.find?_cons_of_neg]
        · have : dictGet (sparseDict ts (k + 1)) ((k + (j + 1) : Nat) : Int) =
              ts.get ⟨j, hj⟩ := by rw [harg]; exact hrec
          simpa [dictGet] using this
        · simp only [beq_iff_eq]
          push_cast; omega

/-- C8: for every dense target list, the sparse structure built from it has the
same length; in-range indexing returns the stored value when set and the
missing sentinel (`none`) when unset; indexing at any position `≥ length`
raises `IndexError`. -/
theorem claim_C8 (ts : List (Option ℚ)) :
    (SparseNoneArray.ofTargets ts).length = ts.length ∧
    (∀ (j : Nat) (h : j < ts.length),
      (SparseNoneArray.ofTargets ts).getItem (j : Int) = .ok (ts.get ⟨j, h⟩)) ∧
    (∀ i : Int, (ts.length : Int) ≤ i →
      (SparseNoneArray.ofTargets ts).getItem i = .error .indexError) := by
  refine ⟨rfl, ?_, ?_⟩
  · intro j h
    have hlt : ¬ (((SparseNoneArray.ofTargets ts).length : Int) ≤ (j : Int)) := by
      simp only [SparseNoneArray.ofTargets]
      omega
    simp only [SparseNoneArray.getItem, hlt, if_false]
    have := dictGet_sparseDict_in ts 0 j h
    simpa [SparseNoneArray.ofTargets] using this
  · intro i hi
    simp only [SparseNoneArray.getItem, SparseNoneArray.ofTargets]
    rw [if_pos hi]

/-- Witness for C8 at `targets = [1.0, None, 3.0]`. -/
theorem claim_C8_witness :
    (SparseNoneArray.ofTargets [some 1, none, some 3]).length = 3 ∧
    (SparseNoneArray.ofTargets [some 1, none, some 3]).getItem 0 = .ok (some 1) ∧
    (SparseNoneArray.ofTargets [some 1, none, some 3]).getItem 1 = .ok none ∧
    (SparseNoneArray.ofTargets [some 1, none, some 3]).getItem 3 = .error .indexError := by
  have h := claim_C8 [some 1, none, some 3]
  refine ⟨h.1, ?_, ?_, h.2.2 3 (by decide)⟩
  · have := h.2.1 0 (by decide)
    simpa using this
  · have := h.2.1 1 (by decide)
    simpa using this

/-- C10: indexing the sparse structure raises iff the index is `≥ length`;
in particular every negative index returns the missing sentinel rather than
wrapping around. -/
theorem claim_C10 (ts : List (Option ℚ)) (i : Int) :
    ((SparseNoneArray.ofTargets ts).getItem i = .error .indexError ↔
      (ts.length : Int) ≤ i) ∧
    (i < 0 → (SparseNoneArray.ofTargets ts).getItem i = .ok none) := by
  constructor
  · constructor
    · intro h
      by_contra hlt
      simp only [SparseNoneArray.getItem, SparseNoneArray.ofTargets] at h
      rw [if_neg hlt] at h
      exact Except.noConfusion h
    · intro hi
      simp only [SparseNoneArray.getItem, SparseNoneArray.ofTargets]
      rw [if_pos hi]
  · intro hneg
    have hlt : ¬ ((ts.length : Int) ≤ i) := by omega
    simp only [SparseNoneArray.getItem, SparseNoneArray.ofTargets]
    rw [if_neg hlt, dictGet_sparseDict_out ts 0 i]
    left
    simpa using hneg

/-- Witness for C10 at `targets = [1.0]`, indices `-1` and `1`. -/
theorem claim_C10_witness :
    (SparseNoneArray.ofTargets [some 1]).getItem (-1) = .ok none ∧
    (SparseNoneArray.ofTargets [some 1]).getItem 1 = .error .indexError := by
  have h1 := claim_C10 [some 1] (-1)
  have h2 := claim_C10 [some 1] 1
  exact ⟨h1.2 (by decide), h2.1.mpr (by decide)⟩

instance {ε α : Type} [DecidableEq ε] [DecidableEq α] : DecidableEq (Except ε α) := fun x y =>
  match x, y with
  | .ok a, .ok b =>
    if h : a = b then isTrue (by rw [h]) else isFalse (by intro hc; cases hc; exact h rfl)
  | .error e, .error f =>
    if h : e = f then isTrue (by rw [h]) else isFalse (by intro hc; cases hc; exact h rfl)
  | .ok _, .error _ => isFalse (by intro hc; cases hc)
  | .error _, .ok _ => isFalse (by intro hc; cases hc)


/-! ## substructure_index_mapping (`data.py` lines 345–375)

```python
def substructure_index_mapping(smiles, substructures):
    mol = ...                      # only used for GetNumAtoms()
    num_atoms = mol.GetNumAtoms()
    atoms_in_substructures = set().union(*substructures)
    remaining_atoms = set(range(num_atoms)) - atoms_in_substructures
    assert sum(len(s) for s in substructures) == len(atoms_in_substructures)
    substructures = [sorted(list(substruct)) for substruct in substructures]
    substructures = sorted(substructures, key=lambda substruct: substruct[0])
    index_map = [None for _ in range(num_atoms)]
    remaining_atom_ordering = sorted(list(remaining_atoms))
    for i in range(len(remaining_atom_ordering)):
        index_map[remaining_atom_ordering[i]] = i
    for i in range(len(substructures)):
        for atom in substructures[i]:
            index_map[atom] = len(remaining_atom_ordering) + i
    return index_map
```

The molecule enters only through its atom count, so the embedding takes
`numAtoms` directly.  `substructures` is a Python `set` of `frozenset`s: each
`frozenset` is a `Finset ℕ` and the set of them is a `List (Finset ℕ)` (the
iteration order of the Python set; every result below is independent of that
order, and reachable Python inputs have no duplicates).  The failed `assert`
is `PyError.assertionError`; the `IndexError` raised by the sort key
`substruct[0]` on an empty substructure, and by `index_map[atom]` on an
out-of-range atom, are `PyError.indexError`.  The two fill loops assign each
position of `index_map` exactly once (remaining atoms and substructure atoms
partition `range num_atoms` once the assert passed and atoms are in range),
so the result is expressed pointwise over `List.range numAtoms`. -/

/-- `set().union(*substructures)`. -/
def atomsInSubstructures (S : List (Finset ℕ)) : Finset ℕ :=
  S.foldr (fun s acc => s ∪ acc) ∅

/-- `sorted(list(s))` for a `frozenset` of atom indices: the ascending
enumeration of `s`, computed structurally as a filter of an initial segment so
that concrete instances reduce by `decide`. -/
def finsetAscList (s : Finset ℕ) : List ℕ :=
  (List.range (s.sup id + 1)).filter (fun a => decide (a ∈ s))

theorem mem_finsetAscList {s : Finset ℕ} {a : ℕ} : a ∈ finsetAscList s ↔ a ∈ s := by
  simp only [finsetAscList, List.mem_filter, List.mem_range, decide_eq_true_eq]
  constructor
  · exact fun h => h.2
  · intro h
    exact ⟨Nat.lt_succ_of_le (Finset.le_sup (f := id) h), h⟩

theorem finsetAscList_sorted_lt (s : Finset ℕ) : (finsetAscList s).Sorted (· < ·) :=
  (List.pairwise_lt_range _).filter _

theorem finsetAscList_sorted_le (s : Finset ℕ) : (finsetAscList s).Sorted (· ≤ ·) :=
  (finsetAscList_sorted_lt s).imp le_of_lt

theorem finsetAscList_nodup (s : Finset ℕ) : (finsetAscList s).Nodup :=
  (List.nodup_range _).filter _

theorem finsetAscList_toFinset (s : Finset ℕ) : (finsetAscList s).toFinset = s := by
  ext a
  rw [List.mem_toFinset, mem_finsetAscList]

theorem finsetAscList_length (s : Finset ℕ) : (finsetAscList s).length = s.card := by
  rw [← List.toFinset_card_of_nodup (finsetAscList_nodup s), finsetAscList_toFinset]

/-- Sort key order used by `sorted(substructures, key=lambda s: s[0])`: each
inner list is already sorted ascending, so its first element is its minimum. -/
def byMinKey (l1 l2 : List ℕ) : Prop := l1.headD 0 ≤ l2.headD 0

instance : DecidableRel byMinKey := fun _ _ => Nat.decLe _ _

instance : IsTotal (List ℕ) byMinKey := ⟨fun _ _ => Nat.le_total _ _⟩

instance : IsTrans (List ℕ) byMinKey := ⟨fun _ _ _ => Nat.le_trans⟩

/-- `substructures = [sorted(list(s)) for s in substructures]` followed by
`sorted(substructures, key=lambda s: s[0])`. -/
def sortedSubstructureLists (S : List (Finset ℕ)) : List (List ℕ) :=
  List.insertionSort byMinKey (S.map (fun s => finsetAscList s))

/-- `remaining_atoms = set(range(num_atoms)) - atoms_in_substructures`. -/
def simRemaining (numAtoms : ℕ) (S : List (Finset ℕ)) : Finset ℕ :=
  (Finset.range numAtoms) \ atomsInSubstructures S

/-- The value stored at position `a` of `index_map` by the two fill loops. -/
def simFun (numAtoms : ℕ) (S : List (Finset ℕ)) (a : ℕ) : ℕ :=
  if a ∈ simRemaining numAtoms S then
    (finsetAscList (simRemaining numAtoms S)).indexOf a
  else
    (finsetAscList (simRemaining numAtoms S)).length +
      (sortedSubstructureLists S).findIdx (fun l => decide (a ∈ l))

/-- `substructure_index_mapping`, with its error paths made explicit. -/
def substructure_index_mapping (numAtoms : ℕ) (S : List (Finset ℕ)) :
    Except PyError (List ℕ) :=
  if (S.map Finset.card).sum ≠ (atomsInSubstructures S).card then .error .assertionError
  else if ∅ ∈ S then .error .indexError
  else if ¬ (∀ a ∈ atomsInSubstructures S, a < numAtoms) then .error .indexError
  else .ok ((List.range numAtoms).map (simFun numAtoms S))

theorem mem_atomsInSubstructures {S : List (Finset ℕ)} {a : ℕ} :
    a ∈ atomsInSubstructures S ↔ ∃ s ∈ S, a ∈ s := by
  induction S with
  | nil => simp [atomsInSubstructures]
  | cons s S ih =>
    simp only [atomsInSubstructures, List.foldr_cons, Finset.mem_union, List.mem_cons]
    rw [show S.foldr (fun s acc => s ∪ acc) ∅ = atomsInSubstructures S from rfl]
    rw [ih]
    constructor
    · rintro (h | ⟨t, ht, hat⟩)
      · exact ⟨s, Or.inl rfl, h⟩
      · exact ⟨t, Or.inr ht, hat⟩
    · rintro ⟨t, (rfl | ht), hat⟩
      · exact Or.inl hat
      · exact Or.inr ⟨t, ht, hat⟩

theorem card_atomsInSubstructures_le (S : List (Finset ℕ)) :
    (atomsInSubstructures S).card ≤ (S.map Finset.card).sum := by
  induction S with
  | nil => simp [atomsInSubstructures]
  | cons s S ih =>
    simp only [atomsInSubstructures, List.foldr_cons, List.map_cons, List.sum_cons]
    rw [show S.foldr (fun s acc => s ∪ acc) ∅ = atomsInSubstructures S from rfl]
    have := Finset.card_union_le s (atomsInSubstructures S)
    omega

/-- The `assert`ed equality holds exactly when the substructures are pairwise
disjoint. -/
theorem sim_assert_iff (S : List (Finset ℕ)) :
    (S.map Finset.card).sum = (atomsInSubstructures S).card ↔
      List.Pairwise Disjoint S := by
  induction S with
  | nil => simp [atomsInSubstructures]
  | cons s S ih =>
    simp only [List.map_cons, List.sum_cons, List.pairwise_cons]
    rw [show atomsInSubstructures (s :: S) = s ∪ atomsInSubstructures S from rfl]
    have hcards := Finset.card_union_add_card_inter s (atomsInSubstructures S)
    have hle := card_atomsInSubstructures_le S
    constructor
    · intro h
      have hinter : (s ∩ atomsInSubstructures S).card = 0 := by omega
      have hsum : (S.map Finset.card).sum = (atomsInSubstructures S).card := by omega
      refine ⟨?_, ih.mp hsum⟩
      intro t htS
      rw [Finset.disjoint_left]
      intro a has hat
      have : a ∈ s ∩ atomsInSubstructures S :=
        Finset.mem_inter.mpr ⟨has, mem_atomsInSubstructures.mpr ⟨t, htS, hat⟩⟩
      rw [Finset.card_eq_zero] at hinter
      simp [hinter] at this
    · rintro ⟨hdisj, hpw⟩
      have hinter : s ∩ atomsInSubstructures S = ∅ := by
        rw [Finset.eq_empty_iff_forall_not_mem]
        intro a ha
        obtain ⟨has, hain⟩ := Finset.mem_inter.mp ha
        obtain ⟨t, htS, hat⟩ := mem_atomsInSubstructures.mp hain
        exact absurd hat (Finset.disjoint_left.mp (hdisj t htS) has)
      have hsum := ih.mpr hpw
      rw [hinter] at hcards
      simp only [Finset.card_empty] at hcards
      omega

theorem sim_ok {numAtoms : ℕ} {S : List (Finset ℕ)}
    (hassert : (S.map Finset.card).sum = (atomsInSubstructures S).card)
    (hempty : ∅ ∉ S)
    (hrange : ∀ a ∈ atomsInSubstructures S, a < numAtoms) :
    substructure_index_mapping numAtoms S =
      .ok ((List.range numAtoms).map (simFun numAtoms S)) := by
  unfold substructure_index_mapping
  rw [if_neg (not_not_intro hassert), if_neg hempty, if_neg (not_not_intro hrange)]

theorem map_range_getD (f : ℕ → ℕ) {n a : ℕ} (h : a < n) :
    ((List.range n).map f).getD a 0 = f a := by
  simp [List.getD_eq_getElem?_getD, List.getElem?_map, List.getElem?_range h]

theorem indexOf_lt_indexOf_of_lt {l : List ℕ} (hs : l.Sorted (· < ·))
    {a b : ℕ} (ha : a ∈ l) (hb : b ∈ l) (hab : a < b) :
    l.indexOf a < l.indexOf b := by
  have hia : l.indexOf a < l.length := List.indexOf_lt_length.mpr ha
  have hib : l.indexOf b < l.length := List.indexOf_lt_length.mpr hb
  have hga := List.indexOf_get hia
  have hgb := List.indexOf_get hib
  have hsm := hs.get_strictMono
  have : (⟨l.indexOf a, hia⟩ : Fin l.length) < ⟨l.indexOf b, hib⟩ := by
    rw [← hsm.lt_iff_lt, hga, hgb]
    exact hab
  exact this

theorem sortedSubstructureLists_perm (S : List (Finset ℕ)) :
    (sortedSubstructureLists S).Perm (S.map (fun s => finsetAscList s)) :=
  List.perm_insertionSort _ _

theorem mem_sortedSubstructureLists {S : List (Finset ℕ)} {l : List ℕ} :
    l ∈ sortedSubstructureLists S ↔ ∃ s ∈ S, l = finsetAscList s := by
  rw [(sortedSubstructureLists_perm S).mem_iff, List.mem_map]
  constructor
  · rintro ⟨s, hs, rfl⟩; exact ⟨s, hs, rfl⟩
  · rintro ⟨s, hs, rfl⟩; exact ⟨s, hs, rfl⟩

theorem sortedSubstructureLists_length (S : List (Finset ℕ)) :
    (sortedSubstructureLists S).length = S.length := by
  rw [(sortedSubstructureLists_perm S).length_eq, List.length_map]

theorem sortedSubstructureLists_pairwise (S : List (Finset ℕ))
    (hpw : List.Pairwise Disjoint S) :
    (sortedSubstructureLists S).Pairwise (fun l1 l2 => ∀ a, a ∈ l1 → a ∉ l2) := by
  have hsymm : ∀ {l1 l2 : List ℕ},
      (∀ a, a ∈ l1 → a ∉ l2) → (∀ a, a ∈ l2 → a ∉ l1) :=
    fun h a ha2 ha1 => h a ha1 ha2
  refine ((sortedSubstructureLists_perm S).pairwise_iff hsymm).mpr ?_
  rw [List.pairwise_map]
  refine hpw.imp ?_
  intro s t hst a ha1 ha2
  rw [mem_finsetAscList] at ha1 ha2
  exact absurd ha2 (Finset.disjoint_left.mp hst ha1)

theorem findIdx_eq_of_pairwise {L : List (List ℕ)}
    (hpd : L.Pairwise (fun l1 l2 => ∀ a, a ∈ l1 → a ∉ l2))
    {i : ℕ} (hi : i < L.length) {a : ℕ} (ha : a ∈ L.get ⟨i, hi⟩) :
    L.findIdx (fun l => decide (a ∈ l)) = i := by
  induction L generalizing i with
  | nil => exact absurd hi (by simp)
  | cons l L ih =>
    rcases List.pairwise_cons.mp hpd with ⟨hhead, htail⟩
    cases i with
    | zero =>
      have : a ∈ l := ha
      simp [List.findIdx_cons, this]
    | succ i =>
      have hi' : i < L.length := Nat.lt_of_succ_lt_succ hi
      have hmem : a ∈ L.get ⟨i, hi'⟩ := ha
      have hnotl : a ∉ l := by
        intro hal
        exact hhead (L.get ⟨i, hi'⟩) (L.get_mem _ _) a hal hmem
      simp only [List.findIdx_cons, decide_eq_false hnotl, cond_false]
      rw [ih htail hi' hmem]

theorem mem_atomsIn_of_mem_sorted {S : List (Finset ℕ)} {l : List ℕ} {a : ℕ}
    (hl : l ∈ sortedSubstructureLists S) (ha : a ∈ l) :
    a ∈ atomsInSubstructures S := by
  obtain ⟨s, hs, rfl⟩ := mem_sortedSubstructureLists.mp hl
  rw [mem_finsetAscList] at ha
  exact mem_atomsInSubstructures.mpr ⟨s, hs, ha⟩

theorem simFun_substructure {numAtoms : ℕ} {S : List (Finset ℕ)}
    (hpw : List.Pairwise Disjoint S)
    {i : ℕ} (hi : i < (sortedSubstructureLists S).length)
    {a : ℕ} (ha : a ∈ (sortedSubstructureLists S).get ⟨i, hi⟩) :
    simFun numAtoms S a =
      (finsetAscList (simRemaining numAtoms S)).length + i := by
  have hain : a ∈ atomsInSubstructures S :=
    mem_atomsIn_of_mem_sorted (List.get_mem _ _ _) ha
  have hnot : a ∉ simRemaining numAtoms S := by
    simp only [simRemaining, Finset.mem_sdiff]
    intro h
    exact h.2 hain
  unfold simFun
  rw [if_neg hnot, findIdx_eq_of_pairwise (sortedSubstructureLists_pairwise S hpw) hi ha]

theorem simFun_surj {numAtoms : ℕ} {S : List (Finset ℕ)}
    (hempty : ∅ ∉ S)
    (hrange : ∀ a ∈ atomsInSubstructures S, a < numAtoms)
    (hpw : List.Pairwise Disjoint S) :
    ∀ v, v < (simRemaining numAtoms S).card + S.length →
      ∃ a, a < numAtoms ∧ simFun numAtoms S a = v := by
  intro v hv
  have hL : (finsetAscList (simRemaining numAtoms S)).length =
      (simRemaining numAtoms S).card := finsetAscList_length _
  by_cases hvR : v < (finsetAscList (simRemaining numAtoms S)).length
  · refine ⟨(finsetAscList (simRemaining numAtoms S)).get ⟨v, hvR⟩, ?_, ?_⟩
    · have hmem : (finsetAscList (simRemaining numAtoms S)).get ⟨v, hvR⟩ ∈
          simRemaining numAtoms S := by
        rw [← mem_finsetAscList]
        exact List.get_mem _ _ _
      have := Finset.mem_sdiff.mp hmem
      exact Finset.mem_range.mp this.1
    · have hmem : (finsetAscList (simRemaining numAtoms S)).get ⟨v, hvR⟩ ∈
          simRemaining numAtoms S := by
        rw [← mem_finsetAscList]
        exact List.get_mem _ _ _
      unfold simFun
      rw [if_pos hmem]
      exact List.get_indexOf (finsetAscList_nodup _) ⟨v, hvR⟩
  · have hi : v - (finsetAscList (simRemaining numAtoms S)).length <
        (sortedSubstructureLists S).length := by
      rw [sortedSubstructureLists_length]
      omega
    set i := v - (finsetAscList (simRemaining numAtoms S)).length with hidef
    have hllmem : (sortedSubstructureLists S).get ⟨i, hi⟩ ∈ sortedSubstructureLists S :=
      List.get_mem _ _ _
    obtain ⟨s, hsS, hls⟩ := mem_sortedSubstructureLists.mp hllmem
    have hsne : s.Nonempty := by
      rcases s.eq_empty_or_nonempty with rfl | h
      · exact absurd hsS hempty
      · exact h
    have hpos : 0 < ((sortedSubstructureLists S).get ⟨i, hi⟩).length := by
      rw [hls, finsetAscList_length]
      exact Finset.card_pos.mpr hsne
    set a := ((sortedSubstructureLists S).get ⟨i, hi⟩).get ⟨0, hpos⟩ with hadef
    have hamem : a ∈ (sortedSubstructureLists S).get ⟨i, hi⟩ := List.get_mem _ _ _
    refine ⟨a, ?_, ?_⟩
    · exact hrange a (mem_atomsIn_of_mem_sorted hllmem hamem)
    · rw [simFun_substructure hpw hi hamem]
      omega

/-- C1 is false as stated: `substructure_index_mapping` is not a bijection
from `[0, N)` onto `[0, N)`.  With `N = 2` and the single substructure
`{0, 1}`, both atoms map to slot `0`: the map `[0, 0]` is neither injective
nor onto `[0, 2)` (no atom maps to `1`). -/
theorem claim_C1_counterexample :
    substructure_index_mapping 2 [({0, 1} : Finset ℕ)] = Except.ok [0, 0] ∧
    ∀ v ∈ [0, 0], v ≠ 1 := by
  constructor
  · decide
  · decide

/-- C1 (amended): for disjoint, nonempty, in-range substructures the map is a
total surjection from `[0, N)` onto the compacted space `[0, R + K)`
(`R` = remaining-atom count, `K` = substructure count, so atoms of a
multi-atom substructure share one slot and the map is a bijection only when
every substructure is a singleton): non-substructure atoms occupy the
contiguous slots `[0, R)` in their original relative order, and all atoms of
the `i`-th substructure — substructures ordered by minimum original atom
index — occupy the single trailing slot `R + i`. -/
theorem claim_C1_amended (numAtoms : ℕ) (S : List (Finset ℕ))
    (hne : ∀ s ∈ S, s.Nonempty)
    (hrange : ∀ s ∈ S, ∀ a ∈ s, a < numAtoms)
    (hpw : List.Pairwise Disjoint S) :
    ∃ m, substructure_index_mapping numAtoms S = Except.ok m ∧
      m.length = numAtoms ∧
      (∀ a b, a < b → b < numAtoms → a ∉ atomsInSubstructures S →
        b ∉ atomsInSubstructures S → m.getD a 0 < m.getD b 0) ∧
      (∀ a, a < numAtoms → a ∉ atomsInSubstructures S →
        m.getD a 0 < (simRemaining numAtoms S).card) ∧
      (∀ (i : ℕ) (hi : i < (sortedSubstructureLists S).length),
        ∀ a ∈ (sortedSubstructureLists S).get ⟨i, hi⟩,
          m.getD a 0 = (simRemaining numAtoms S).card + i) ∧
      (sortedSubstructureLists S).length = S.length ∧
      List.Sorted byMinKey (sortedSubstructureLists S) ∧
      (∀ l ∈ sortedSubstructureLists S, l.Sorted (· ≤ ·) ∧ l ≠ []) ∧
      ((sortedSubstructureLists S).map List.toFinset).Perm S ∧
      (∀ v, v < (simRemaining numAtoms S).card + S.length →
        ∃ a, a < numAtoms ∧ m.getD a 0 = v) := by
  have hempty : ∅ ∉ S := fun h => (hne ∅ h).ne_empty rfl
  have hrange' : ∀ a ∈ atomsInSubstructures S, a < numAtoms := by
    intro a ha
    obtain ⟨s, hs, has⟩ := mem_atomsInSubstructures.mp ha
    exact hrange s hs a has
  have hassert := (sim_assert_iff S).mpr hpw
  have hL : (finsetAscList (simRemaining numAtoms S)).length =
      (simRemaining numAtoms S).card := finsetAscList_length _
  have hmemrem : ∀ a, a < numAtoms → a ∉ atomsInSubstructures S →
      a ∈ simRemaining numAtoms S := by
    intro a h1 h2
    exact Finset.mem_sdiff.mpr ⟨Finset.mem_range.mpr h1, h2⟩
  refine ⟨_, sim_ok hassert hempty hrange', by simp, ?_, ?_, ?_,
    sortedSubstructureLists_length S, List.sorted_insertionSort byMinKey _, ?_, ?_, ?_⟩
  · intro a b hab hb ha' hb'
    rw [map_range_getD _ (Nat.lt_trans hab hb), map_range_getD _ hb]
    have hma := hmemrem a (Nat.lt_trans hab hb) ha'
    have hmb := hmemrem b hb hb'
    unfold simFun
    rw [if_pos hma, if_pos hmb]
    exact indexOf_lt_indexOf_of_lt (finsetAscList_sorted_lt _)
      (mem_finsetAscList.mpr hma)
      (mem_finsetAscList.mpr hmb) hab
  · intro a ha ha'
    rw [map_range_getD _ ha]
    have hma := hmemrem a ha ha'
    unfold simFun
    rw [if_pos hma, ← hL]
    exact List.indexOf_lt_length.mpr (mem_finsetAscList.mpr hma)
  · intro i hi a ha
    have haN : a < numAtoms :=
      hrange' a (mem_atomsIn_of_mem_sorted (List.get_mem _ _ _) ha)
    rw [map_range_getD _ haN, simFun_substructure hpw hi ha, hL]
  · intro l hl
    obtain ⟨s, hs, rfl⟩ := mem_sortedSubstructureLists.mp hl
    refine ⟨finsetAscList_sorted_le _, ?_⟩
    intro hnil
    have : s.card = 0 := by
      rw [← finsetAscList_length, hnil, List.length_nil]
    exact absurd (Finset.card_eq_zero.mp this) (hne s hs).ne_empty
  · have h1 := (sortedSubstructureLists_perm S).map List.toFinset
    rw [List.map_map] at h1
    have h2 : S.map (List.toFinset ∘ fun s => finsetAscList s) = S.map id := by
      apply List.map_congr_left
      intro s _
      exact finsetAscList_toFinset s
    rw [h2, List.map_id] at h1
    exact h1
  · intro v hv
    obtain ⟨a, h1, h2⟩ := simFun_surj hempty hrange' hpw v hv
    exact ⟨a, h1, by rw [map_range_getD _ h1]; exact h2⟩

/-- Witness for the amended C1 at `numAtoms = 3`, substructures `{{1, 2}}`. -/
theorem claim_C1_witness :
    ∃ m, substructure_index_mapping 3 [({1, 2} : Finset ℕ)] = Except.ok m ∧
      m.length = 3 ∧
      (∀ a b, a < b → b < 3 → a ∉ atomsInSubstructures [({1, 2} : Finset ℕ)] →
        b ∉ atomsInSubstructures [({1, 2} : Finset ℕ)] → m.getD a 0 < m.getD b 0) ∧
      (∀ a, a < 3 → a ∉ atomsInSubstructures [({1, 2} : Finset ℕ)] →
        m.getD a 0 < (simRemaining 3 [({1, 2} : Finset ℕ)]).card) ∧
      (∀ (i : ℕ) (hi : i < (sortedSubstructureLists [({1, 2} : Finset ℕ)]).length),
        ∀ a ∈ (sortedSubstructureLists [({1, 2} : Finset ℕ)]).get ⟨i, hi⟩,
          m.getD a 0 = (simRemaining 3 [({1, 2} : Finset ℕ)]).card + i) ∧
      (sortedSubstructureLists [({1, 2} : Finset ℕ)]).length =
        [({1, 2} : Finset ℕ)].length ∧
      List.Sorted byMinKey (sortedSubstructureLists [({1, 2} : Finset ℕ)]) ∧
      (∀ l ∈ sortedSubstructureLists [({1, 2} : Finset ℕ)],
        l.Sorted (· ≤ ·) ∧ l ≠ []) ∧
      ((sortedSubstructureLists [({1, 2} : Finset ℕ)]).map List.toFinset).Perm
        [({1, 2} : Finset ℕ)] ∧
      (∀ v, v < (simRemaining 3 [({1, 2} : Finset ℕ)]).card +
          [({1, 2} : Finset ℕ)].length →
        ∃ a, a < 3 ∧ m.getD a 0 = v) :=
  claim_C1_amended 3 [({1, 2} : Finset ℕ)] (by decide) (by decide) (by simp)

/-- C7: with nonempty, in-range substructure sets, any overlap (an atom in two
distinct substructures, i.e. failure of pairwise disjointness) makes
`substructure_index_mapping` fail with the fatal assertion error, and every
pairwise-disjoint family succeeds. -/
theorem claim_C7 (numAtoms : ℕ) (S : List (Finset ℕ))
    (hne : ∀ s ∈ S, s.Nonempty)
    (hrange : ∀ s ∈ S, ∀ a ∈ s, a < numAtoms) :
    (¬ List.Pairwise Disjoint S →
      substructure_index_mapping numAtoms S = .error .assertionError) ∧
    (List.Pairwise Disjoint S →
      ∃ m, substructure_index_mapping numAtoms S = .ok m) := by
  constructor
  · intro hov
    have hneq : (S.map Finset.card).sum ≠ (atomsInSubstructures S).card := by
      intro h
      exact hov ((sim_assert_iff S).mp h)
    unfold substructure_index_mapping
    rw [if_pos hneq]
  · intro hpw
    have hempty : ∅ ∉ S := fun h => (hne ∅ h).ne_empty rfl
    have hrange' : ∀ a ∈ atomsInSubstructures S, a < numAtoms := by
      intro a ha
      obtain ⟨s, hs, has⟩ := mem_atomsInSubstructures.mp ha
      exact hrange s hs a has
    exact ⟨_, sim_ok ((sim_assert_iff S).mpr hpw) hempty hrange'⟩

/-- Witness for C7 at `numAtoms = 3` with substructures `{{0}, {1, 2}}`. -/
theorem claim_C7_witness :
    (¬ List.Pairwise Disjoint [({0} : Finset ℕ), {1, 2}] →
      substructure_index_mapping 3 [({0} : Finset ℕ), {1, 2}] =
        .error .assertionError) ∧
    (List.Pairwise Disjoint [({0} : Finset ℕ), {1, 2}] →
      ∃ m, substructure_index_mapping 3 [({0} : Finset ℕ), {1, 2}] = .ok m) :=
  claim_C7 3 [({0} : Finset ℕ), {1, 2}] (by decide) (by decide)

/-! ## Mask (re)generation (`data.py` lines 119–189)

`recreate_mask` has four policies.  The substructure policy (lines 125–140):

```python
self.substructures = get_substructures(...)        # external (vocab.py)
self.substructure_index_map = substructure_index_mapping(self.mol, self.substructures)
self.mask = np.ones(max(self.substructure_index_map) + 1)
self.mask[-len(self.substructures):] = 0   # the last entries correspond to the substructures
self.mask = list(self.mask)
```

`get_substructures` is an external collaborator (it lives in `vocab.py`,
outside this subsystem), so the found substructures are a parameter here.
`max([])` raises `ValueError` (molecule with no atoms).  The numpy slice
assignment `a[-k:] = v` writes the last `k` entries when `k > 0` but the
*whole* array when `k = 0` (since `a[-0:]` is `a[0:]`); `npSetSliceFromEnd`
reproduces exactly that semantics. -/

/-- numpy `a[-k:] = v` on a 1-d array, as a pure function. -/
def npSetSliceFromEnd (l : List ℚ) (k : ℕ) (v : ℚ) : List ℚ :=
  let start := if k = 0 then 0 else l.length - k
  l.take start ++ List.replicate (l.length - start) v

/-- `recreate_mask`, substructure branch: the mask it stores. -/
def recreate_mask_substructure (numAtoms : ℕ) (S : List (Finset ℕ)) :
    Except PyError (List ℚ) :=
  match substructure_index_mapping numAtoms S with
  | .error e => .error e
  | .ok im =>
    match im.max? with
    | none => .error .valueError
    | some mx => .ok (npSetSliceFromEnd (List.replicate (mx + 1) 1) S.length 0)

/-- C2 fails on the code as a slicing bug: when zero substructures are found
(`len(self.substructures) == 0`) the assignment `mask[-0:] = 0` zeroes the
*entire* mask, so the mask is all zeros instead of the claim's all ones.  The
code clearly intends only the trailing substructure entries to be zero (its
own comment says "the last entries correspond to the substructures", and the
analogous `vocab_targets[-len:]` assignment two lines below *is* guarded by
`if len(substructure_index_labels) > 0`).  With at least one substructure the
mask has the claimed shape, as the third conjunct shows. -/
theorem claim_C2_bug :
    recreate_mask_substructure 1 [] = Except.ok [0] ∧
    recreate_mask_substructure 3 [] = Except.ok [0, 0, 0] ∧
    recreate_mask_substructure 3 [({1, 2} : Finset ℕ)] = Except.ok [1, 0] := by
  refine ⟨by decide, by decide, by decide⟩

/-! The three random policies (lines 144–189).  Randomness is passed in
explicitly: `rand t` is the `t`-th `np.random.rand` draw (a real in `[0,1)`,
modelled in `ℚ`), `draws t` the `t`-th `np.random.random()` draw, `itcs t`
and `nbrs t` determine the `t`-th `random.randint` draws (taken `mod` the
bound, which ranges over exactly the values `randint` produces), `randIdx`
determines `np.random.randint(len(mask))`, and `pick` chooses the element
a Python `set.pop()` returns.  numpy boolean masks (`rand > p`) are stored as
their numeric values `1`/`0`, matching `True == 1`/`False == 0`. -/

/-- `self.mask[cluster] = 0` for a list of indices. -/
def setIndices (mask : List ℚ) (idxs : List ℕ) (v : ℚ) : List ℚ :=
  idxs.foldl (fun m i => m.set i v) mask

/-- The `while len(atoms) != 0` loop of the cluster policy (lines 147–155):

```python
atoms = set(range(num_targets))
while len(atoms) != 0:
    atom = atoms.pop()
    neighbors = self.nb_indices[atom]
    cluster = [atom] + neighbors
    if np.random.random() < self.bert_mask_prob / len(cluster):
        self.mask[cluster] = 0
        atoms -= set(neighbors)
```

`fuel` bounds the number of iterations; every iteration removes the popped
atom, so `fuel = |atoms|` always suffices when `pick` returns a member.
The returned pair is the final `(mask, atoms)`. -/
def clusterLoop (pick : Finset ℕ → ℕ) (draws : ℕ → ℚ) (p : ℚ) (nb : ℕ → List ℕ) :
    ℕ → ℕ → Finset ℕ → List ℚ → List ℚ × Finset ℕ
  | 0, _, atoms, mask => (mask, atoms)
  | fuel + 1, t, atoms, mask =>
    if atoms.Nonempty then
      let atom := pick atoms
      let neighbors := nb atom
      let cluster := atom :: neighbors
      if draws t < p / (cluster.length : ℚ) then
        clusterLoop pick draws p nb fuel (t + 1)
          ((atoms.erase atom) \ neighbors.toFinset) (setIndices mask cluster 0)
      else
        clusterLoop pick draws p nb fuel (t + 1) (atoms.erase atom) mask
    else (mask, atoms)

/-- `recreate_mask`, cluster branch (lines 144–162), including the
"ensure at least one cluster of 0s" fix-up.  `np.random.randint(0)` on an
empty mask would raise `ValueError`. -/
def recreate_mask_cluster (numTargets : ℕ) (pick : Finset ℕ → ℕ) (draws : ℕ → ℚ)
    (p : ℚ) (nb : ℕ → List ℕ) (randIdx : ℕ) : Except PyError (List ℚ) :=
  let mask := (clusterLoop pick draws p nb numTargets 0 (Finset.range numTargets)
      (List.replicate numTargets 1)).1
  if mask.sum = (mask.length : ℚ) then
    if mask.length = 0 then .error .valueError
    else
      let atom := randIdx % mask.length
      .ok (setIndices mask (atom :: nb atom) 0)
  else .ok mask

/-- `recreate_mask`, random branch (lines 178–183):
`mask = np.random.rand(num_targets) > p`, then if nothing was masked, force a
random entry to `0`. -/
def recreate_mask_random (numTargets : ℕ) (rand : ℕ → ℚ) (p : ℚ) (randIdx : ℕ) :
    Except PyError (List ℚ) :=
  let mask := (List.range numTargets).map (fun i => if p < rand i then (1 : ℚ) else 0)
  if mask.sum = (mask.length : ℚ) then
    if mask.length = 0 then .error .valueError
    else .ok (mask.set (randIdx % mask.length) 0)
  else .ok mask

/-- The perturbation loop of the correlation branch (lines 168–172):

```python
for _ in range(len(self.mask)):
    index_to_change = random.randint(0, len(self.mask) - 1)
    if len(self.nb_indices[index_to_change]) > 0:
        nbr_index = random.randint(0, len(self.nb_indices[index_to_change]) - 1)
        self.mask[index_to_change] = self.mask[nbr_index]
```

(The read `self.mask[nbr_index]` uses the *position in the neighbor list*,
not the neighbor's atom id — preserved literally.  On a molecule graph that
position is always `< len(mask)`, so the `getD` default is never consulted.) -/
def correlationPerturb (nb : ℕ → List ℕ) (itcs nbrs : ℕ → ℕ) (mask0 : List ℚ) :
    List ℚ :=
  (List.range mask0.length).foldl (fun m t =>
    let itc := itcs t % m.length
    if 0 < (nb itc).length then
      m.set itc (m.getD (nbrs t % (nb itc).length) 0)
    else m) mask0

/-- `recreate_mask`, correlation branch (lines 164–176). -/
def recreate_mask_correlation (numTargets : ℕ) (rand : ℕ → ℚ) (p : ℚ)
    (nb : ℕ → List ℕ) (itcs nbrs : ℕ → ℕ) (randIdx : ℕ) : Except PyError (List ℚ) :=
  let mask := correlationPerturb nb itcs nbrs
    ((List.range numTargets).map (fun i => if p < rand i then (1 : ℚ) else 0))
  if mask.sum = (mask.length : ℚ) then
    if mask.length = 0 then .error .valueError
    else .ok (mask.set (randIdx % mask.length) 0)
  else .ok mask

/-! Mask-value bookkeeping: all generated masks hold only `0`s and `1`s, and
`sum(mask) == len(mask)` detects the all-ones mask. -/

theorem sum_le_length_of_01 {m : List ℚ} (h : ∀ x ∈ m, x = 0 ∨ x = 1) :
    m.sum ≤ (m.length : ℚ) := by
  induction m with
  | nil => simp
  | cons x m ih =>
    have hx := h x (List.mem_cons_self _ _)
    have hm := ih (fun y hy => h y (List.mem_cons_of_mem _ hy))
    simp only [List.sum_cons, List.length_cons]
    push_cast
    rcases hx with rfl | rfl <;> linarith

theorem sum_eq_length_iff_01 {m : List ℚ} (h : ∀ x ∈ m, x = 0 ∨ x = 1) :
    m.sum = (m.length : ℚ) ↔ ∀ x ∈ m, x = 1 := by
  induction m with
  | nil => simp
  | cons x m ih =>
    have hx := h x (List.mem_cons_self _ _)
    have h' : ∀ y ∈ m, y = 0 ∨ y = 1 := fun y hy => h y (List.mem_cons_of_mem _ hy)
    have hle := sum_le_length_of_01 h'
    simp only [List.sum_cons, List.length_cons, List.mem_cons]
    push_cast
    constructor
    · intro he
      rcases hx with rfl | rfl
      · linarith
      · have hsum : m.sum = (m.length : ℚ) := by linarith
        have hall := (ih h').mp hsum
        rintro y (rfl | hy)
        · rfl
        · exact hall y hy
    · intro hall
      have hx1 : x = 1 := hall x (Or.inl rfl)
      have hm1 : ∀ y ∈ m, y = 1 := fun y hy => hall y (Or.inr hy)
      rw [hx1, (ih h').mpr hm1]
      ring

theorem zero_mem_of_not_all_one {m : List ℚ} (h : ∀ x ∈ m, x = 0 ∨ x = 1)
    (hne : ¬ ∀ x ∈ m, x = 1) : (0 : ℚ) ∈ m := by
  push_neg at hne
  obtain ⟨x, hx, hx1⟩ := hne
  rcases h x hx with rfl | rfl
  · exact hx
  · exact absurd rfl hx1

theorem zero_mem_set {m : List ℚ} {i : ℕ} (h : i < m.length) :
    (0 : ℚ) ∈ m.set i 0 := by
  have hl : i < (m.set i 0).length := by simpa using h
  have hg := List.getElem_mem hl
  rw [List.getElem_set] at hg
  simpa using hg

theorem zero_mem_set_of_zero_mem {m : List ℚ} {i : ℕ} (h0 : (0 : ℚ) ∈ m) :
    (0 : ℚ) ∈ m.set i 0 := by
  obtain ⟨q, hq, hval⟩ := List.getElem_of_mem h0
  have hq' : q < (m.set i 0).length := by simpa using hq
  have hmem := List.getElem_mem hq'
  rw [List.getElem_set] at hmem
  by_cases hiq : i = q
  · simpa [hiq] using hmem
  · rw [if_neg hiq, hval] at hmem
    exact hmem

theorem setIndices_length (idxs : List ℕ) (m : List ℚ) (v : ℚ) :
    (setIndices m idxs v).length = m.length := by
  induction idxs generalizing m with
  | nil => rfl
  | cons i idxs ih =>
    show (setIndices (m.set i v) idxs v).length = m.length
    rw [ih, List.length_set]

theorem mem_setIndices {idxs : List ℕ} {m : List ℚ} {v x : ℚ}
    (hx : x ∈ setIndices m idxs v) : x ∈ m ∨ x = v := by
  induction idxs generalizing m with
  | nil => exact Or.inl hx
  | cons i idxs ih =>
    rcases ih hx with h | h
    · exact (List.mem_or_eq_of_mem_set h).imp id id
    · exact Or.inr h

theorem zero_mem_setIndices_of_zero_mem {idxs : List ℕ} {m : List ℚ}
    (h0 : (0 : ℚ) ∈ m) : (0 : ℚ) ∈ setIndices m idxs 0 := by
  induction idxs generalizing m with
  | nil => exact h0
  | cons i idxs ih => exact ih (zero_mem_set_of_zero_mem h0)

theorem zero_mem_setIndices_head {m : List ℚ} {i : ℕ} {idxs : List ℕ}
    (h : i < m.length) : (0 : ℚ) ∈ setIndices m (i :: idxs) 0 := by
  show (0 : ℚ) ∈ setIndices (m.set i 0) idxs 0
  exact zero_mem_setIndices_of_zero_mem (zero_mem_set h)

theorem getD_01 {m : List ℚ} (h : ∀ x ∈ m, x = 0 ∨ x = 1) (i : ℕ) :
    m.getD i 0 = 0 ∨ m.getD i 0 = 1 := by
  rw [List.getD_eq_getElem?_getD]
  by_cases hi : i < m.length
  · rw [List.getElem?_eq_getElem hi]
    exact h _ (List.getElem_mem hi)
  · rw [List.getElem?_eq_none (Nat.le_of_not_lt hi)]
    exact Or.inl rfl

theorem correlationPerturb_props (nb : ℕ → List ℕ) (itcs nbrs : ℕ → ℕ)
    (mask0 : List ℚ) (h01 : ∀ x ∈ mask0, x = 0 ∨ x = 1) :
    (∀ x ∈ correlationPerturb nb itcs nbrs mask0, x = 0 ∨ x = 1) ∧
    (correlationPerturb nb itcs nbrs mask0).length = mask0.length := by
  suffices hgen : ∀ (L : List ℕ) (m : List ℚ), (∀ x ∈ m, x = 0 ∨ x = 1) →
      (∀ x ∈ L.foldl (fun m t =>
        if 0 < (nb (itcs t % m.length)).length then
          m.set (itcs t % m.length)
            (m.getD (nbrs t % (nb (itcs t % m.length)).length) 0)
        else m) m, x = 0 ∨ x = 1) ∧
      (L.foldl (fun m t =>
        if 0 < (nb (itcs t % m.length)).length then
          m.set (itcs t % m.length)
            (m.getD (nbrs t % (nb (itcs t % m.length)).length) 0)
        else m) m).length = m.length by
    exact hgen (List.range mask0.length) mask0 h01
  intro L
  induction L with
  | nil => exact fun m h => ⟨h, rfl⟩
  | cons t L ih =>
    intro m h
    simp only [List.foldl_cons]
    by_cases hc : 0 < (nb (itcs t % m.length)).length
    · rw [if_pos hc]
      have hset01 : ∀ x ∈ m.set (itcs t % m.length)
          (m.getD (nbrs t % (nb (itcs t % m.length)).length) 0), x = 0 ∨ x = 1 := by
        intro x hx
        rcases List.mem_or_eq_of_mem_set hx with h' | h'
        · exact h x h'
        · rw [h']
          exact getD_01 h _
      have := ih _ hset01
      exact ⟨this.1, by rw [this.2, List.length_set]⟩
    · rw [if_neg hc]
      exact ih m h

theorem clusterLoop_props (pick : Finset ℕ → ℕ) (draws : ℕ → ℚ) (p : ℚ)
    (nb : ℕ → List ℕ) :
    ∀ (fuel t : ℕ) (atoms : Finset ℕ) (mask : List ℚ),
      (∀ x ∈ mask, x = 0 ∨ x = 1) →
      (∀ x ∈ (clusterLoop pick draws p nb fuel t atoms mask).1, x = 0 ∨ x = 1) ∧
      (clusterLoop pick draws p nb fuel t atoms mask).1.length = mask.length := by
  intro fuel
  induction fuel with
  | zero => exact fun t atoms mask h => ⟨h, rfl⟩
  | succ fuel ih =>
    intro t atoms mask h
    by_cases hne : atoms.Nonempty
    · simp only [clusterLoop]
      rw [if_pos hne]
      split_ifs with hdraw
      · have h01 : ∀ x ∈ setIndices mask (pick atoms :: nb (pick atoms)) 0,
            x = 0 ∨ x = 1 := by
          intro x hx
          rcases mem_setIndices hx with h' | h'
          · exact h x h'
          · exact Or.inl h'
        have := ih (t + 1) ((atoms.erase (pick atoms)) \ (nb (pick atoms)).toFinset)
          (setIndices mask (pick atoms :: nb (pick atoms)) 0) h01
        exact ⟨this.1, by rw [this.2, setIndices_length]⟩
      · exact ih (t + 1) _ _ h
    · simp only [clusterLoop]
      rw [if_neg hne]
      exact ⟨h, rfl⟩

theorem fixup_has_zero (mask : List ℚ) (randIdx : ℕ)
    (h01 : ∀ x ∈ mask, x = 0 ∨ x = 1) (hlen : mask.length ≠ 0) :
    ∃ m, (if mask.sum = (mask.length : ℚ) then
            if mask.length = 0 then (Except.error PyError.valueError : Except PyError (List ℚ))
            else .ok (mask.set (randIdx % mask.length) 0)
          else .ok mask) = .ok m ∧ (0 : ℚ) ∈ m := by
  by_cases hsum : mask.sum = (mask.length : ℚ)
  · refine ⟨_, by rw [if_pos hsum, if_neg hlen], ?_⟩
    exact zero_mem_set (Nat.mod_lt _ (Nat.pos_of_ne_zero hlen))
  · refine ⟨mask, by rw [if_neg hsum], ?_⟩
    apply zero_mem_of_not_all_one h01
    intro hall
    exact hsum ((sum_eq_length_iff_01 h01).mpr hall)

theorem cluster_fixup_has_zero (mask : List ℚ) (nb : ℕ → List ℕ) (randIdx : ℕ)
    (h01 : ∀ x ∈ mask, x = 0 ∨ x = 1) (hlen : mask.length ≠ 0) :
    ∃ m, (if mask.sum = (mask.length : ℚ) then
            if mask.length = 0 then (Except.error PyError.valueError : Except PyError (List ℚ))
            else .ok (setIndices mask
              ((randIdx % mask.length) :: nb (randIdx % mask.length)) 0)
          else .ok mask) = .ok m ∧ (0 : ℚ) ∈ m := by
  by_cases hsum : mask.sum = (mask.length : ℚ)
  · refine ⟨_, by rw [if_pos hsum, if_neg hlen], ?_⟩
    exact zero_mem_setIndices_head (Nat.mod_lt _ (Nat.pos_of_ne_zero hlen))
  · refine ⟨mask, by rw [if_neg hsum], ?_⟩
    apply zero_mem_of_not_all_one h01
    intro hall
    exact hsum ((sum_eq_length_iff_01 h01).mpr hall)

/-- C4: for at least one atom and any masking probability in `(0, 1)`, the
random, correlation and cluster policies always produce a mask containing at
least one `0` entry, whatever the random draws (and however `set.pop`
chooses): either some draw already masked an entry, or the trailing
"ensure at least one 0" fix-up forces one. -/
theorem claim_C4 (numTargets : ℕ) (h1 : 1 ≤ numTargets) (p : ℚ)
    (_hp0 : 0 < p) (_hp1 : p < 1) (rand draws : ℕ → ℚ) (pick : Finset ℕ → ℕ)
    (nb : ℕ → List ℕ) (itcs nbrs : ℕ → ℕ) (randIdx : ℕ) :
    (∃ m, recreate_mask_random numTargets rand p randIdx = .ok m ∧ (0 : ℚ) ∈ m) ∧
    (∃ m, recreate_mask_correlation numTargets rand p nb itcs nbrs randIdx = .ok m ∧
      (0 : ℚ) ∈ m) ∧
    (∃ m, recreate_mask_cluster numTargets pick draws p nb randIdx = .ok m ∧
      (0 : ℚ) ∈ m) := by
  have hmask01 : ∀ x ∈ (List.range numTargets).map
      (fun i => if p < rand i then (1 : ℚ) else 0), x = 0 ∨ x = 1 := by
    intro x hx
    obtain ⟨i, _, rfl⟩ := List.mem_map.mp hx
    by_cases h : p < rand i
    · rw [if_pos h]; exact Or.inr rfl
    · rw [if_neg h]; exact Or.inl rfl
  have hmlen : ((List.range numTargets).map
      (fun i => if p < rand i then (1 : ℚ) else 0)).length = numTargets := by
    rw [List.length_map, List.length_range]
  refine ⟨?_, ?_, ?_⟩
  · have h := fixup_has_zero _ randIdx hmask01 (by omega)
    exact h
  · have hprops := correlationPerturb_props nb itcs nbrs _ hmask01
    have h := fixup_has_zero _ randIdx hprops.1 (by rw [hprops.2]; omega)
    exact h
  · have hrep01 : ∀ x ∈ List.replicate numTargets (1 : ℚ), x = 0 ∨ x = 1 := by
      intro x hx
      exact Or.inr (List.eq_of_mem_replicate hx)
    have hprops := clusterLoop_props pick draws p nb numTargets 0
      (Finset.range numTargets) (List.replicate numTargets 1) hrep01
    have h := cluster_fixup_has_zero _ nb randIdx hprops.1
      (by rw [hprops.2, List.length_replicate]; omega)
    exact h

/-- Witness for C4 at one atom, `p = 1/2`, all draws `0`. -/
theorem claim_C4_witness :
    (∃ m, recreate_mask_random 1 (fun _ => 0) (1/2) 0 = .ok m ∧ (0 : ℚ) ∈ m) ∧
    (∃ m, recreate_mask_correlation 1 (fun _ => 0) (1/2) (fun _ => [])
      (fun _ => 0) (fun _ => 0) 0 = .ok m ∧ (0 : ℚ) ∈ m) ∧
    (∃ m, recreate_mask_cluster 1 (fun _ => 0) (fun _ => 0) (1/2) (fun _ => []) 0 =
      .ok m ∧ (0 : ℚ) ∈ m) :=
  claim_C4 1 (by decide) (1/2) (by norm_num) (by norm_num) (fun _ => 0) (fun _ => 0)
    (fun _ => 0) (fun _ => []) (fun _ => 0) (fun _ => 0) 0

/-! ## C3: the cluster-policy loop -/

/-- Deterministic stand-in for `set.pop()`: the smallest element. -/
def pick0 (s : Finset ℕ) : ℕ := (finsetAscList s).headD 0

theorem pick0_mem : ∀ s : Finset ℕ, s.Nonempty → pick0 s ∈ s := by
  intro s hs
  have hne : finsetAscList s ≠ [] := by
    intro h
    have hcard : s.card = 0 := by
      rw [← finsetAscList_length s, h]
      rfl
    exact absurd (Finset.card_eq_zero.mp hcard) hs.ne_empty
  have hmem : pick0 s ∈ finsetAscList s := by
    unfold pick0
    cases hl : finsetAscList s with
    | nil => exact absurd hl hne
    | cons a l => simp
  exact mem_finsetAscList.mp hmem

/-- C3 is false as stated: clustered neighbors are *not* removed from the
visitable set when the cluster is not masked.  Two mutually bonded atoms,
`pick` = smallest, the draw `1` fails the threshold `(1/2)/2 = 1/4`: after the
first iteration (`fuel = 1` exposes exactly one iteration) atom `0` was popped
and its cluster `[0, 1]` left unmasked, yet its clustered neighbor `1` is
still in the visitable set `{1}` — the claim requires it to have been removed
regardless of the mask outcome. -/
theorem claim_C3_counterexample :
    clusterLoop pick0 (fun _ => 1) (1/2) (fun a => if a = 0 then [1] else [0])
        1 0 (Finset.range 2) [1, 1] = ([1, 1], {1}) ∧
    pick0 (Finset.range 2) = 0 ∧
    ((fun a => if a = 0 then [1] else [0] : ℕ → List ℕ) 0 = [1]) := by
  have hpick : pick0 (Finset.range 2) = 0 := by decide
  refine ⟨?_, hpick, by decide⟩
  have hne : (Finset.range 2).Nonempty := ⟨0, by decide⟩
  show clusterLoop pick0 (fun _ => 1) (1/2) (fun a => if a = 0 then [1] else [0])
      (Nat.succ 0) 0 (Finset.range 2) [1, 1] = ([1, 1], {1})
  rw [clusterLoop.eq_2, if_pos hne, hpick]
  have hcond : ¬ ((fun _ => (1 : ℚ)) 0 <
      1/2 / (((0 :: (fun a => if a = 0 then [1] else ([0] : List ℕ)) 0).length : ℕ) : ℚ)) := by
    norm_num
  rw [if_neg hcond, clusterLoop.eq_1]
  decide

/-- C3 (amended): each iteration pops an arbitrary unvisited atom, forms its
cluster (itself plus immediate neighbors), masks the whole cluster with
probability `bert_mask_prob / cluster_size`, and removes the clustered
neighbors from the visitable set *only when the cluster was masked* (the
popped atom itself is always removed); this repeats until all atoms are
visited. -/
theorem claim_C3_amended (pick : Finset ℕ → ℕ) (draws : ℕ → ℚ) (p : ℚ)
    (nb : ℕ → List ℕ) (hpick : ∀ s : Finset ℕ, s.Nonempty → pick s ∈ s) :
    (∀ (fuel t : ℕ) (atoms : Finset ℕ) (mask : List ℚ), atoms.Nonempty →
      clusterLoop pick draws p nb (fuel + 1) t atoms mask =
        (if draws t < p / (((pick atoms :: nb (pick atoms)).length : ℕ) : ℚ) then
          clusterLoop pick draws p nb fuel (t + 1)
            ((atoms.erase (pick atoms)) \ (nb (pick atoms)).toFinset)
            (setIndices mask (pick atoms :: nb (pick atoms)) 0)
        else
          clusterLoop pick draws p nb fuel (t + 1) (atoms.erase (pick atoms)) mask)) ∧
    (∀ (fuel t : ℕ) (atoms : Finset ℕ) (mask : List ℚ), atoms.card ≤ fuel →
      (clusterLoop pick draws p nb fuel t atoms mask).2 = ∅) := by
  constructor
  · intro fuel t atoms mask hne
    simp only [clusterLoop]
    rw [if_pos hne]
  · intro fuel
    induction fuel with
    | zero =>
      intro t atoms mask hcard
      have : atoms = ∅ := Finset.card_eq_zero.mp (Nat.le_zero.mp hcard)
      simpa [clusterLoop] using this
    | succ fuel ih =>
      intro t atoms mask hcard
      by_cases hne : atoms.Nonempty
      · have hmem := hpick atoms hne
        have herase : (atoms.erase (pick atoms)).card < atoms.card :=
          Finset.card_erase_lt_of_mem hmem
        simp only [clusterLoop]
        rw [if_pos hne]
        split_ifs with hdraw
        · apply ih
          have hsub : ((atoms.erase (pick atoms)) \ (nb (pick atoms)).toFinset).card ≤
              (atoms.erase (pick atoms)).card :=
            Finset.card_le_card Finset.sdiff_subset
          omega
        · apply ih
          omega
      · simp only [clusterLoop]
        rw [if_neg hne]
        exact Finset.not_nonempty_iff_eq_empty.mp hne

/-- Witness for the amended C3 with `pick` = smallest element. -/
theorem claim_C3_witness :
    (∀ (fuel t : ℕ) (atoms : Finset ℕ) (mask : List ℚ), atoms.Nonempty →
      clusterLoop pick0 (fun _ => 1) (1/2) (fun _ => []) (fuel + 1) t atoms mask =
        (if (fun _ => (1 : ℚ)) t < (1/2) /
            (((pick0 atoms :: (fun _ => ([] : List ℕ)) (pick0 atoms)).length : ℕ) : ℚ) then
          clusterLoop pick0 (fun _ => 1) (1/2) (fun _ => []) fuel (t + 1)
            ((atoms.erase (pick0 atoms)) \
              ((fun _ => ([] : List ℕ)) (pick0 atoms)).toFinset)
            (setIndices mask (pick0 atoms :: (fun _ => ([] : List ℕ)) (pick0 atoms)) 0)
        else
          clusterLoop pick0 (fun _ => 1) (1/2) (fun _ => []) fuel (t + 1)
            (atoms.erase (pick0 atoms)) mask)) ∧
    (∀ (fuel t : ℕ) (atoms : Finset ℕ) (mask : List ℚ), atoms.card ≤ fuel →
      (clusterLoop pick0 (fun _ => 1) (1/2) (fun _ => []) fuel t atoms mask).2 = ∅) :=
  claim_C3_amended pick0 (fun _ => 1) (1/2) (fun _ => []) pick0_mem

/-! ## normalize_features (`data.py` lines 310–328)

```python
def normalize_features(self, scaler=None):
    if len(self.data) == 0 or self.data[0].features is None:
        return None
    if scaler is not None:
        self.scaler = scaler
    else:
        if self.scaler is not None:
            scaler = self.scaler
        else:
            features = np.vstack([d.features for d in self.data])
            scaler = StandardScaler(replace_nan_token=0)
            scaler.fit(features)
            self.scaler = scaler
    for d in self.data:
        d.features = scaler.transform(d.features.reshape(1, -1))[0]
    return scaler
```
-/

/-- Exact rational square root for perfect squares (`Nat.sqrt` on numerator
and denominator); the standard deviation of the concrete instances below is
an exact square. -/
def ratSqrt (q : ℚ) : ℚ := (Nat.sqrt q.num.toNat : ℚ) / (Nat.sqrt q.den : ℚ)

/-- Modelled from the spec: `StandardScaler` lives in `scaler.py`, outside
this subsystem's source.  Per the spec it is a "per-feature mean/std
transform (treating the missing sentinel as 0) over the stacked feature
matrix": `fit` records each column's mean and standard deviation, `transform`
maps entry `x` of column `j` to `(x - mean_j) / std_j`.  (`ℚ` has no NaN, so
the missing-sentinel replacement has no effect here.) -/
structure StandardScaler where
  means : List ℚ
  stds : List ℚ
  deriving Repr, DecidableEq

/-- Modelled from the spec: mean of column `j` of the stacked feature matrix. -/
def colMean (rows : List (List ℚ)) (j : ℕ) : ℚ :=
  (rows.map (fun row => row.getD j 0)).sum / (rows.length : ℚ)

/-- Modelled from the spec: standard deviation of column `j`. -/
def colStd (rows : List (List ℚ)) (j : ℕ) : ℚ :=
  ratSqrt ((rows.map (fun row => (row.getD j 0 - colMean rows j) ^ 2)).sum /
    (rows.length : ℚ))

/-- Modelled from the spec: `scaler.fit(features)`. -/
def StandardScaler.fit (rows : List (List ℚ)) : StandardScaler :=
  { means := (List.range (rows.headD []).length).map (colMean rows),
    stds := (List.range (rows.headD []).length).map (colStd rows) }

/-- Modelled from the spec: `scaler.transform` on one feature row. -/
def StandardScaler.transform (sc : StandardScaler) (row : List ℚ) : List ℚ :=
  (List.range row.length).map
    (fun j => (row.getD j 0 - sc.means.getD j 0) / sc.stds.getD j 0)

/-- The feature-normalization state of a dataset: each datapoint's feature
vector, plus the dataset's stored scaler (`self.scaler`, `None` until fit). -/
structure NFState where
  featuress : List (List ℚ)
  scaler : Option StandardScaler
  deriving Repr, DecidableEq

/-- `normalize_features`: returns the updated dataset state and the returned
scaler (`none` models the early `return None`). -/
def normalize_features (st : NFState) (scalerArg : Option StandardScaler) :
    NFState × Option StandardScaler :=
  if st.featuress.isEmpty then (st, none)
  else
    let scaler :=
      match scalerArg with
      | some sc => sc
      | none =>
        match st.scaler with
        | some sc => sc
        | none => StandardScaler.fit st.featuress
    ({ featuress := st.featuress.map scaler.transform, scaler := some scaler },
      some scaler)

theorem normalize_features_no_scaler (rows : List (List ℚ))
    (h : rows.isEmpty = false) :
    normalize_features ⟨rows, none⟩ none =
      ({ featuress := rows.map (StandardScaler.fit rows).transform,
         scaler := some (StandardScaler.fit rows) },
       some (StandardScaler.fit rows)) := by
  simp [normalize_features, h]

theorem normalize_features_with_scaler (rows : List (List ℚ))
    (sc : StandardScaler) (h : rows.isEmpty = false) :
    normalize_features ⟨rows, some sc⟩ none =
      ({ featuress := rows.map sc.transform, scaler := some sc }, some sc) := by
  simp [normalize_features, h]

/-- C5 is false as stated: the second `normalize_features` call re-applies the
stored transform to the already-normalized features.  Two one-feature
datapoints `0` and `2` fit mean `1`, std `1`; the first call yields
`[-1], [1]`, the second `(x - 1)/1` again, yielding `[-2], [0]`. -/
theorem claim_C5_counterexample :
    (normalize_features ⟨[[0], [2]], none⟩ none).1.featuress = [[-1], [1]] ∧
    (normalize_features (normalize_features ⟨[[0], [2]], none⟩ none).1
      none).1.featuress = [[-2], [0]] ∧
    ([[-2], [0]] : List (List ℚ)) ≠ [[-1], [1]] := by
  have hsq : ratSqrt 1 = 1 := by
    unfold ratSqrt
    norm_num [show ((1 : ℚ).num.toNat) = 1 from rfl, show ((1 : ℚ).den) = 1 from rfl]
  have hrange : List.range 1 = [0] := rfl
  have hmean : colMean [[0], [2]] 0 = 1 := by
    unfold colMean
    norm_num
  have hfit : StandardScaler.fit [[0], [2]] = ⟨[1], [1]⟩ := by
    unfold StandardScaler.fit colMean colStd
    norm_num [hrange, hsq, hmean]
  have htr1 : (StandardScaler.fit [[0], [2]]).transform [0] = [-1] := by
    rw [hfit]
    unfold StandardScaler.transform
    norm_num [hrange]
  have htr2 : (StandardScaler.fit [[0], [2]]).transform [2] = [1] := by
    rw [hfit]
    unfold StandardScaler.transform
    norm_num [hrange]
  have h1 := normalize_features_no_scaler [[0], [2]] rfl
  have hst1 : (normalize_features ⟨[[0], [2]], none⟩ none).1 =
      ⟨[[-1], [1]], some (StandardScaler.fit [[0], [2]])⟩ := by
    rw [h1]
    simp [htr1, htr2]
  have htr3 : (StandardScaler.fit [[0], [2]]).transform [-1] = [-2] := by
    rw [hfit]
    unfold StandardScaler.transform
    norm_num [hrange]
  have htr4 : (StandardScaler.fit [[0], [2]]).transform [1] = [0] := by
    rw [hfit]
    unfold StandardScaler.transform
    norm_num [hrange]
  refine ⟨by rw [hst1], ?_, by decide⟩
  rw [hst1, normalize_features_with_scaler [[-1], [1]] _ rfl]
  simp [htr3, htr4]

/-- C5 (amended): with no supplied and no stored scaler, the first call fits a
scaler on the stacked features, stores it, and transforms every feature
vector; a second call reuses the stored scaler and applies its transform
*again*, so the features after the second call are the stored scaler's
transform of the features after the first call — not, in general, equal to
them. -/
theorem claim_C5_amended (rows : List (List ℚ)) (h : rows ≠ []) :
    (normalize_features ⟨rows, none⟩ none).1.scaler =
      some (StandardScaler.fit rows) ∧
    (normalize_features ⟨rows, none⟩ none).1.featuress =
      rows.map (StandardScaler.fit rows).transform ∧
    (normalize_features (normalize_features ⟨rows, none⟩ none).1
        none).1.featuress =
      (normalize_features ⟨rows, none⟩ none).1.featuress.map
        (StandardScaler.fit rows).transform := by
  have hne : rows.isEmpty = false := by
    cases rows with
    | nil => exact absurd rfl h
    | cons a l => rfl
  have h1 := normalize_features_no_scaler rows hne
  have hne2 : (rows.map (StandardScaler.fit rows).transform).isEmpty = false := by
    cases rows with
    | nil => exact absurd rfl h
    | cons a l => rfl
  refine ⟨by rw [h1], by rw [h1], ?_⟩
  rw [h1]
  show (normalize_features
      ⟨rows.map (StandardScaler.fit rows).transform, some (StandardScaler.fit rows)⟩
      none).1.featuress =
    (rows.map (StandardScaler.fit rows).transform).map (StandardScaler.fit rows).transform
  rw [normalize_features_with_scaler _ _ hne2]

/-- Witness for the amended C5 at the two-datapoint dataset `[[0], [2]]`. -/
theorem claim_C5_witness :
    (normalize_features ⟨[[0], [2]], none⟩ none).1.scaler =
      some (StandardScaler.fit [[0], [2]]) ∧
    (normalize_features ⟨[[0], [2]], none⟩ none).1.featuress =
      ([[0], [2]] : List (List ℚ)).map (StandardScaler.fit [[0], [2]]).transform ∧
    (normalize_features (normalize_features ⟨[[0], [2]], none⟩ none).1
        none).1.featuress =
      (normalize_features ⟨[[0], [2]], none⟩ none).1.featuress.map
        (StandardScaler.fit [[0], [2]]).transform :=
  claim_C5_amended [[0], [2]] (by decide)

/-! ## MoleculeDataset: shuffle and chunk (`data.py` lines 200–213, 291–308)

```python
class MoleculeDataset(Dataset):
    def __init__(self, data):
        self.data = data
        ...
        self.kernel = self.data[0].kernel if len(self.data) > 0 else False
        if self.kernel:
            # want an even number of data points
            if len(self.data) % 2 == 1:
                self.data = self.data[:-1]
    ...
    def shuffle(self, seed=None):
        if seed is not None:
            random.seed(seed)
        random.shuffle(self.data)
        if self.bert_pretraining:
            for d in self.data:
                d.recreate_mask()
    def chunk(self, num_chunks, seed=None):
        self.shuffle(seed)
        datasets = []
        chunk_len = math.ceil(len(self.data) / num_chunks)
        for i in range(num_chunks):
            datasets.append(MoleculeDataset(self.data[i * chunk_len:(i + 1) * chunk_len]))
        return datasets
```

The Python `random` module (an external collaborator) is modelled by an
explicit integer state: `random.seed(s)` replaces the state by a function of
`s` alone, and `random.shuffle` is the standard Fisher–Yates loop
(`for i in reversed(range(1, len(x))): j = randbelow(i+1); swap x[i], x[j]`)
driven by that state — here with an LCG standing in for the Mersenne Twister.
The claims below use only that seeding is a function of the seed and that the
shuffle is a deterministic length-preserving permutation, which holds of the
real generator as well.  Mask regeneration after a pretraining shuffle
consumes further randomness but does not change the datapoint order, so the
order model omits it. -/

def lcgNext (s : ℕ) : ℕ := (s * 1103515245 + 12345) % 2147483648

/-- `random.seed(n)`: the resulting generator state depends on `n` only. -/
def pySeed (n : ℕ) : ℕ := n % 2147483648

/-- Swap positions `i` and `j` (Python `x[i], x[j] = x[j], x[i]`). -/
def listSwap {α : Type} (l : List α) (i j : ℕ) : List α :=
  match l[i]?, l[j]? with
  | some a, some b => (l.set i b).set j a
  | _, _ => l

/-- The Fisher–Yates loop, iterating the swap index `i+1` downward (the
decreasing index comes first). -/
def fyGo {α : Type} : ℕ → ℕ → List α → List α × ℕ
  | 0, s, l => (l, s)
  | i + 1, s, l =>
    fyGo i (lcgNext s) (listSwap l (i + 1) (lcgNext s % (i + 2)))

/-- `random.shuffle(l)` with explicit generator state. -/
def pyShuffle {α : Type} (s : ℕ) (l : List α) : List α × ℕ :=
  fyGo (l.length - 1) s l

structure MoleculeDataset (α : Type) where
  data : List α
  kernel : Bool
  deriving Repr, DecidableEq

/-- `MoleculeDataset.__init__`: a kernel dataset drops its last datapoint when
the count is odd; an empty dataset reports `kernel = False` (the flag is
mirrored from the first datapoint only when one exists). -/
def MoleculeDataset.ofData {α : Type} (kernel : Bool) (data : List α) :
    MoleculeDataset α :=
  { data := if kernel = true ∧ data.length % 2 = 1 then data.dropLast else data,
    kernel := if data.length = 0 then false else kernel }

/-- `shuffle(seed)`: reseed when a seed is supplied, then permute the data. -/
def MoleculeDataset.shuffle {α : Type} (d : MoleculeDataset α) (rng : ℕ)
    (seed : Option ℕ) : MoleculeDataset α × ℕ :=
  let r := match seed with
    | some n => pySeed n
    | none => rng
  let res := pyShuffle r d.data
  ({ d with data := res.1 }, res.2)

/-- `chunk(num_chunks, seed)`: shuffle, then slice into `num_chunks` pieces of
`ceil(len/num_chunks)` elements; each slice goes through the `MoleculeDataset`
constructor.  (`num_chunks = 0` would raise `ZeroDivisionError` in Python;
the claims quantify over `num_chunks ≥ 1`.) -/
def MoleculeDataset.chunk {α : Type} (d : MoleculeDataset α) (rng : ℕ)
    (seed : Option ℕ) (numChunks : ℕ) : List (MoleculeDataset α) × ℕ :=
  let res := d.shuffle rng seed
  let chunkLen := (res.1.data.length + numChunks - 1) / numChunks
  ((List.range numChunks).map (fun i =>
    MoleculeDataset.ofData res.1.kernel
      ((res.1.data.drop (i * chunkLen)).take chunkLen)), res.2)

/-- C6: shuffling two independently constructed datasets with the same
content and the same seed yields the same order — `random.seed` makes the
generator state a function of the seed alone, and the shuffle is a
deterministic function of the state and the data. -/
theorem claim_C6 {α : Type} (d1 d2 : MoleculeDataset α) (rng1 rng2 : ℕ)
    (seed : ℕ) (h : d1.data = d2.data) :
    (d1.shuffle rng1 (some seed)).1.data = (d2.shuffle rng2 (some seed)).1.data := by
  unfold MoleculeDataset.shuffle
  simp only [h]

/-- Witness for C6: same data `[1, 2, 3]`, different other state
(`kernel` flag, prior RNG states), seed `42`. -/
theorem claim_C6_witness :
    ((⟨[1, 2, 3], false⟩ : MoleculeDataset ℕ).shuffle 0 (some 42)).1.data =
    ((⟨[1, 2, 3], true⟩ : MoleculeDataset ℕ).shuffle 999 (some 42)).1.data :=
  claim_C6 ⟨[1, 2, 3], false⟩ ⟨[1, 2, 3], true⟩ 0 999 42 rfl

theorem cons_set_perm {α : Type} :
    ∀ (xs : List α) (k : ℕ) (hk : k < xs.length) (x : α),
      ((xs.get ⟨k, hk⟩) :: xs.set k x).Perm (x :: xs) := by
  intro xs
  induction xs with
  | nil => intro k hk; simp at hk
  | cons y ys ih =>
    intro k hk x
    cases k with
    | zero => exact List.Perm.swap x y ys
    | succ k =>
      have hk' : k < ys.length := Nat.lt_of_succ_lt_succ hk
      show ((ys.get ⟨k, hk'⟩) :: y :: ys.set k x).Perm (x :: y :: ys)
      exact ((List.Perm.swap y (ys.get ⟨k, hk'⟩) (ys.set k x)).trans
        ((ih k hk' x).cons y)).trans (List.Perm.swap x y ys)

theorem set_set_swap_perm {α : Type} :
    ∀ (l : List α) (i j : ℕ) (hi : i < l.length) (hj : j < l.length),
      ((l.set i (l.get ⟨j, hj⟩)).set j (l.get ⟨i, hi⟩)).Perm l := by
  intro l
  induction l with
  | nil => intro i j hi _; simp at hi
  | cons x xs ih =>
    intro i j hi hj
    cases i with
    | zero =>
      cases j with
      | zero =>
        show (x :: xs).Perm (x :: xs)
        exact List.Perm.refl _
      | succ j =>
        have hj' : j < xs.length := Nat.lt_of_succ_lt_succ hj
        show ((xs.get ⟨j, hj'⟩) :: xs.set j x).Perm (x :: xs)
        exact cons_set_perm xs j hj' x
    | succ i =>
      have hi' : i < xs.length := Nat.lt_of_succ_lt_succ hi
      cases j with
      | zero =>
        show ((xs.get ⟨i, hi'⟩) :: xs.set i x).Perm (x :: xs)
        exact cons_set_perm xs i hi' x
      | succ j =>
        have hj' : j < xs.length := Nat.lt_of_succ_lt_succ hj
        show (x :: (xs.set i (xs.get ⟨j, hj'⟩)).set j (xs.get ⟨i, hi'⟩)).Perm (x :: xs)
        exact (ih i j hi' hj').cons x

theorem listSwap_perm {α : Type} (l : List α) (i j : ℕ) :
    (listSwap l i j).Perm l := by
  unfold listSwap
  split
  · next a b h1 h2 =>
      obtain ⟨hi, ha⟩ := List.getElem?_eq_some.mp h1
      obtain ⟨hj, hb⟩ := List.getElem?_eq_some.mp h2
      rw [← ha, ← hb]
      exact set_set_swap_perm l i j hi hj
  · exact List.Perm.refl l

theorem fyGo_perm {α : Type} :
    ∀ (n s : ℕ) (l : List α), ((fyGo n s l).1).Perm l := by
  intro n
  induction n with
  | zero => intro s l; exact List.Perm.refl l
  | succ n ih =>
    intro s l
    show ((fyGo n (lcgNext s) (listSwap l (n + 1) (lcgNext s % (n + 2)))).1).Perm l
    exact (ih (lcgNext s) (listSwap l (n + 1) (lcgNext s % (n + 2)))).trans
      (listSwap_perm l (n + 1) (lcgNext s % (n + 2)))

theorem pyShuffle_perm {α : Type} (s : ℕ) (l : List α) :
    ((pyShuffle s l).1).Perm l :=
  fyGo_perm _ _ _

theorem pyShuffle_length {α : Type} (s : ℕ) (l : List α) :
    (pyShuffle s l).1.length = l.length :=
  (pyShuffle_perm s l).length_eq

theorem ofData_false_data {α : Type} (data : List α) :
    (MoleculeDataset.ofData false data).data = data := by
  unfold MoleculeDataset.ofData
  simp

/-- The chunks are the `ceil`-sized contiguous slices of some permutation of
the data (the shuffled list). -/
theorem chunk_spec {α : Type} (d : MoleculeDataset α) (rng : ℕ) (seed : Option ℕ)
    (n : ℕ) :
    ∃ l' : List α, l'.Perm d.data ∧
      (d.chunk rng seed n).1 = (List.range n).map (fun i =>
        MoleculeDataset.ofData d.kernel
          ((l'.drop (i * ((l'.length + n - 1) / n))).take ((l'.length + n - 1) / n))) :=
  ⟨(pyShuffle (match seed with | some m => pySeed m | none => rng) d.data).1,
    pyShuffle_perm _ _, rfl⟩

theorem join_slices {α : Type} (cl : ℕ) :
    ∀ (n : ℕ) (l : List α),
      ((List.range n).map (fun i => (l.drop (i * cl)).take cl)).flatten =
        l.take (n * cl) := by
  intro n
  induction n with
  | zero => intro l; simp
  | succ n ih =>
    intro l
    rw [List.range_succ_eq_map, List.map_cons, List.map_map, List.flatten_cons]
    have hmap : (List.range n).map
        ((fun i => (l.drop (i * cl)).take cl) ∘ Nat.succ) =
        (List.range n).map (fun i => ((l.drop cl).drop (i * cl)).take cl) := by
      apply List.map_congr_left
      intro i _
      simp only [Function.comp]
      rw [List.drop_drop]
      congr 1
      rw [Nat.succ_mul, Nat.add_comm]
    rw [hmap, ih (l.drop cl), Nat.zero_mul, List.drop_zero,
      show (n + 1) * cl = cl + n * cl from by ring, List.take_add]

theorem ceil_mul_ge (len n : ℕ) (hn : 1 ≤ n) :
    len ≤ n * ((len + n - 1) / n) := by
  have hmod := Nat.div_add_mod (len + n - 1) n
  have hlt : (len + n - 1) % n < n := Nat.mod_lt _ (by omega)
  omega

/-- C9 is false as stated: chunking 7 datapoints into 5 chunks gives sizes
`[2, 2, 2, 1, 0]` (`ceil(7/5) = 2`): chunk 3 — which is not the last — has
size `1 ≠ 2`, so more than just the last chunk can fall short of the ceiling
size. -/
theorem claim_C9_counterexample :
    ((MoleculeDataset.chunk (⟨[0, 1, 2, 3, 4, 5, 6], false⟩ : MoleculeDataset ℕ) 0
        (some 0) 5).1.map (fun c => c.data.length)) = [2, 2, 2, 1, 0] ∧
    (7 + 5 - 1) / 5 = 2 ∧
    ([2, 2, 2, 1, 0].getD 3 0 ≠ 2 ∧ 3 + 1 < 5) := by
  refine ⟨by decide, by decide, by decide⟩

/-- C9 (amended): `chunk(n, seed)` first shuffles, then splits into `n`
contiguous slices of `ceil(len/n)` elements each; once the elements run out
the slices become shorter and then empty, so chunk `i` has
`min(ceil(len/n), len − i·ceil(len/n))` elements — every chunk before the
elements run out is full, after that one chunk may be partial and the rest
are empty (possibly several trailing chunks deviate, not only the last).  For
a non-kernel dataset the chunks' concatenation is a permutation of the
original data. -/
theorem claim_C9_amended {α : Type} (d : MoleculeDataset α) (rng : ℕ)
    (seed : Option ℕ) (n : ℕ) (hn : 1 ≤ n) (hk : d.kernel = false) :
    ((d.chunk rng seed n).1.map (fun c => c.data.length) =
      (List.range n).map (fun i =>
        min ((d.data.length + n - 1) / n)
          (d.data.length - i * ((d.data.length + n - 1) / n)))) ∧
    (((d.chunk rng seed n).1.map (fun c => c.data)).flatten).Perm d.data := by
  obtain ⟨l', hperm, hchunk⟩ := chunk_spec d rng seed n
  have hlen : l'.length = d.data.length := hperm.length_eq
  rw [hchunk, hk]
  constructor
  · rw [List.map_map]
    apply List.map_congr_left
    intro i _
    simp only [Function.comp]
    rw [ofData_false_data, List.length_take, List.length_drop, hlen]
  · rw [List.map_map]
    have hdata : (List.range n).map
        ((fun c => MoleculeDataset.data c) ∘ (fun i =>
          MoleculeDataset.ofData false
            ((l'.drop (i * ((l'.length + n - 1) / n))).take
              ((l'.length + n - 1) / n)))) =
        (List.range n).map (fun i =>
          (l'.drop (i * ((l'.length + n - 1) / n))).take
            ((l'.length + n - 1) / n)) := by
      apply List.map_congr_left
      intro i _
      simp only [Function.comp]
      rw [ofData_false_data]
    rw [hdata, join_slices, List.take_of_length_le]
    · exact hperm
    · exact ceil_mul_ge l'.length n hn

/-- Witness for the amended C9: 10 datapoints, 3 chunks, sizes `[4, 4, 2]`
(the claim's own example), contents preserved. -/
theorem claim_C9_witness :
    (((⟨[0, 1, 2, 3, 4, 5, 6, 7, 8, 9], false⟩ : MoleculeDataset ℕ).chunk 0
        (some 1) 3).1.map (fun c => c.data.length) =
      (List.range 3).map (fun i => min ((10 + 3 - 1) / 3) (10 - i * ((10 + 3 - 1) / 3))) ∧
      ((((⟨[0, 1, 2, 3, 4, 5, 6, 7, 8, 9], false⟩ : MoleculeDataset ℕ).chunk 0
        (some 1) 3).1.map (fun c => c.data)).flatten).Perm
        [0, 1, 2, 3, 4, 5, 6, 7, 8, 9]) ∧
    (List.range 3).map (fun i => min ((10 + 3 - 1) / 3) (10 - i * ((10 + 3 - 1) / 3))) =
      [4, 4, 2] :=
  ⟨claim_C9_amended ⟨[0, 1, 2, 3, 4, 5, 6, 7, 8, 9], false⟩ 0 (some 1) 3
    (by decide) rfl, by decide⟩
